import Mathlib

/-!
# Verification of the genesis phylogenetic-tree toolkit

This file gives a shallow embedding, in Lean 4, of the parts of the genesis
C++ library that the specification talks about, and proves (or refutes)
the specified properties against that embedding.

Embedded components:
* `Bitvector` — `lib/utils/bitvector.hpp` (boundary-checked single-bit access).
* `TreeNode` rank and per-node link iteration — `lib/tree/tree_node.tpp` /
  `lib/tree/tree_node.hpp`.
* The plausibility checker `Plausibility::SpiderpigFunction` —
  `lib/plausibility/plausibility.cpp` (leaf-id collection, Euler tour,
  LCA query loop).
* Newick serialization — `src/tree/newick_processor.cpp`.
* The lexer — `lib/utils/lexer.cpp` together with the `NewickLexer`
  overrides from `lib/tree/newick_processor.hpp`.

Conventions: C++ `std::vector`/`std::string` become Lean lists, machine
integers become `Nat`/`Int` (with explicit `% 2^64` where word overflow
matters), `std::map` becomes an association list with the exact
`operator[]` default-insertion semantics, and loops whose termination
depends on runtime data take an explicit fuel argument chosen large
enough to cover the real executions.
-/

namespace Genesis

-- =============================================================================
--     Bitvector (lib/utils/bitvector.hpp)
-- =============================================================================

/-- One `genesis::Bitvector`: a logical size and the vector of 64-bit words
(`IntType = uint64_t`, `IntSize = 64`). Word values are `Nat`s kept below
`2^64` by the operations. -/
structure Bitvector where
  size_ : Nat
  data_ : List Nat
deriving DecidableEq, Repr

/-- `bit_mask_[j]` from bitvector.cpp: the word with exactly bit `j` set.
The table is indexed only with `index % IntSize`, so `j < 64` at call sites. -/
def bitMask (j : Nat) : Nat := 2 ^ j

/-- `Bitvector::Get`: value of a single bit, with boundary check
(`index >= size_` returns `false`). -/
def Bitvector.Get (b : Bitvector) (index : Nat) : Bool :=
  if index ≥ b.size_ then
    false
  else
    decide (b.data_.getD (index / 64) 0 &&& bitMask (index % 64) ≠ 0)

/-- `Bitvector::Set(index)`: sets a single bit to true, with boundary check
(`index >= size_` is a no-op). -/
def Bitvector.Set (b : Bitvector) (index : Nat) : Bitvector :=
  if index ≥ b.size_ then
    b
  else
    { b with data_ := b.data_.set (index / 64) (b.data_.getD (index / 64) 0 ||| bitMask (index % 64)) }

/-- `Bitvector::Unset`: sets a single bit to false, with boundary check.
`~bit_mask_[j]` on `uint64_t` is the complement inside 64 bits. -/
def Bitvector.Unset (b : Bitvector) (index : Nat) : Bitvector :=
  if index ≥ b.size_ then
    b
  else
    { b with data_ := b.data_.set (index / 64) (b.data_.getD (index / 64) 0 &&& ((2 ^ 64 - 1) ^^^ bitMask (index % 64))) }

/-- `Bitvector::Flip`: inverts a single bit, with boundary check. -/
def Bitvector.Flip (b : Bitvector) (index : Nat) : Bitvector :=
  if index ≥ b.size_ then
    b
  else
    { b with data_ := b.data_.set (index / 64) (b.data_.getD (index / 64) 0 ^^^ bitMask (index % 64)) }

-- =============================================================================
--     TreeNode rank and link iteration (lib/tree/tree_node.tpp / .hpp)
-- =============================================================================

/-- The loop body of `TreeNode::Rank` (tree_node.tpp):
`rank = -1; link = link_; do { ++rank; link = link->Next(); } while (link != link_);`.
A node's links form a circular `next` list; links are modelled by their
indices and `next` by a function on them.  The do-while has already run one
iteration when `rankGo` is entered: `cur` is the link after the first step
and `rank` is `0`.  `fuel` bounds the remaining iterations; a well-formed
node (finite `next` cycle through the primary link) terminates within any
sufficiently large fuel, and `none` means the budget was exhausted (the C++
loop would still be running). -/
def rankGo (next : Nat → Nat) (primary : Nat) : Nat → Nat → Nat → Option Nat
  | cur, rank, fuel =>
    if cur = primary then
      some rank
    else
      match fuel with
      | 0 => none
      | f + 1 => rankGo next primary (next cur) (rank + 1) f

/-- `TreeNode::Rank` (tree_node.tpp, lines 59-71). -/
def TreeNode.Rank (next : Nat → Nat) (primary : Nat) (fuel : Nat) : Option Nat :=
  rankGo next primary (next primary) 0 fuel

/-- The loop body of iterating a node's links from `BeginLinks()` to
`EndLinks()` (tree_node.hpp, `TreeNodeIteratorLinks`): the iterator starts
at the primary link, yields the current link, and `operator++` moves to
`link_->Next()`, becoming the end iterator when it reaches the start link
again.  `acc` collects the yielded links in order. -/
def linksGo (next : Nat → Nat) (primary : Nat) :
    Nat → List Nat → Nat → Option (List Nat)
  | cur, acc, fuel =>
    let acc2 := acc ++ [cur]
    if next cur = primary then
      some acc2
    else
      match fuel with
      | 0 => none
      | f + 1 => linksGo next primary (next cur) acc2 f

/-- The full list of links yielded by iterating from `BeginLinks()` until
`EndLinks()` (tree_node.hpp, lines 197-229). -/
def TreeNode.LinksList (next : Nat → Nat) (primary : Nat) (fuel : Nat) :
    Option (List Nat) :=
  linksGo next primary primary [] fuel

/-- Both loops advance in lockstep: when the rank loop (already past its
first step, sitting at `next cur`) returns `r`, the link iteration from
`cur` with accumulator of length `rank` yields `r + 1` links in total,
and the walk closes the cycle. -/
theorem linksGo_of_rankGo (next : Nat → Nat) (primary : Nat) :
    ∀ (fuel : Nat) (cur : Nat) (acc : List Nat) (rank r : Nat),
      acc.length = rank →
      rankGo next primary (next cur) rank fuel = some r →
      ∃ l, linksGo next primary cur acc fuel = some l ∧ l.length = r + 1 := by
  intro fuel
  induction fuel with
  | zero =>
    intro cur acc rank r hlen hr
    unfold rankGo at hr
    by_cases h : next cur = primary
    · simp only [h, if_pos rfl] at hr
      refine ⟨acc ++ [cur], ?_, ?_⟩
      · unfold linksGo
        simp [h]
      · cases hr
        simp [hlen]
    · simp only [if_neg h] at hr
      cases hr
  | succ f ih =>
    intro cur acc rank r hlen hr
    unfold rankGo at hr
    by_cases h : next cur = primary
    · simp only [h, if_pos rfl] at hr
      refine ⟨acc ++ [cur], ?_, ?_⟩
      · unfold linksGo
        simp [h]
      · cases hr
        simp [hlen]
    · simp only [if_neg h] at hr
      obtain ⟨l, hl, hlen2⟩ :=
        ih (next cur) (acc ++ [cur]) (rank + 1) r (by simp [hlen]) hr
      refine ⟨l, ?_, hlen2⟩
      unfold linksGo
      simp only [if_neg h]
      exact hl

/-- A successful rank loop closes the `next` cycle: from `cur` (one step
past the primary link when entered with `rank = 0`), `r - rank` further
steps reach the primary link. -/
theorem rankGo_cycle (next : Nat → Nat) (primary : Nat) :
    ∀ (fuel : Nat) (cur : Nat) (rank r : Nat),
      rankGo next primary cur rank fuel = some r →
      rank ≤ r ∧ next^[r - rank] cur = primary := by
  intro fuel
  induction fuel with
  | zero =>
    intro cur rank r hr
    unfold rankGo at hr
    by_cases h : cur = primary
    · simp only [if_pos h] at hr
      cases hr
      simpa using h
    · simp [if_neg h] at hr
  | succ f ih =>
    intro cur rank r hr
    unfold rankGo at hr
    by_cases h : cur = primary
    · simp only [if_pos h] at hr
      cases hr
      simpa using h
    · simp only [if_neg h] at hr
      obtain ⟨hle, hcyc⟩ := ih (next cur) (rank + 1) r hr
      constructor
      · omega
      · have hstep : r - rank = (r - (rank + 1)) + 1 := by omega
        rw [hstep, Function.iterate_succ_apply]
        exact hcyc

-- =============================================================================
--     Trees for the plausibility checker (lib/plausibility/plausibility.cpp)
-- =============================================================================

/-- A rooted multifurcating tree as produced by the Newick reader: a node
with a name (taxon name for leaves) and an ordered list of child subtrees.
This is the view of the link/node/edge topology that
`Plausibility::SpiderpigFunction` traverses. -/
inductive RTree where
  | node (name : String) (children : List RTree)

mutual

/-- Number of nodes of the tree (`Tree::NodeCount`). -/
def RTree.NodeCount : RTree → Nat
  | .node _ cs => 1 + nodeCountList cs

def nodeCountList : List RTree → Nat
  | [] => 0
  | t :: ts => RTree.NodeCount t + nodeCountList ts

end

mutual

/-- The leaf names of the tree in preorder (depth-first, parent before
children) order: exactly the leaves met by the `BeginPreorder()` walks of
`SpiderpigFunction` (`IsLeaf` holds iff the node has no children). -/
def RTree.Leaves : RTree → List String
  | .node name [] => [name]
  | .node _ (c :: cs) => leavesList (c :: cs)

def leavesList : List RTree → List String
  | [] => []
  | t :: ts => RTree.Leaves t ++ leavesList ts

end

/-- `Tree::LeafCount` of the small tree. -/
def RTree.LeafCount (t : RTree) : Nat := t.Leaves.length

-- =============================================================================
--     std::map with operator[] semantics
-- =============================================================================

/-- Lookup in the association-list model of `std::map<std::string, int>`. -/
def lookupName (m : List (String × Nat)) (k : String) : Option Nat :=
  (m.find? (fun p => p.1 == k)).map (fun p => p.2)

/-- `reference_map[name] = c` (assignment through `operator[]`): replaces the
value if the key is present, inserts it otherwise. -/
def insertAssign : List (String × Nat) → String → Nat → List (String × Nat)
  | [], k, v => [(k, v)]
  | (k2, v2) :: rest, k, v =>
    if k2 = k then (k, v) :: rest else (k2, v2) :: insertAssign rest k v

/-- Reading `m[k]` through `std::map::operator[]`: if the key is absent the
map value-initializes an entry (`int` becomes `0`), inserts it, and returns
it.  Returns the value read and the possibly-extended map. -/
def mapBracket (m : List (String × Nat)) (k : String) :
    Nat × List (String × Nat) :=
  match lookupName m k with
  | some v => (v, m)
  | none => (0, m ++ [(k, 0)])

mutual

/-- The first loop of `SpiderpigFunction` (plausibility.cpp, lines 30-43):
walk the reference tree in preorder, assign each node its preorder id `c`,
and record `reference_map[name] = c` for every leaf.  Returns the updated
map and the counter after the subtree. -/
def refMapGo : RTree → Nat → List (String × Nat) → List (String × Nat) × Nat
  | .node name cs, c, m =>
    let m1 := if cs.isEmpty then insertAssign m name c else m
    refMapGoList cs (c + 1) m1

def refMapGoList : List RTree → Nat → List (String × Nat) → List (String × Nat) × Nat
  | [], c, m => (m, c)
  | t :: ts, c, m =>
    let r := refMapGo t c m
    refMapGoList ts r.2 r.1

end

/-- The leaf-name → preorder-id map of the reference tree. -/
def RefMapOf (t : RTree) : List (String × Nat) := (refMapGo t 0 []).1

-- =============================================================================
--     SpiderpigFunction: leaf-id collection and LCA query loop
-- =============================================================================

/-- The small-tree loop of `SpiderpigFunction` (plausibility.cpp, lines
86-94): for every leaf of the small tree (in preorder), push
`(reference_map[name], 1)` — where `operator[]` silently default-inserts
`0` when `name` is absent — into `preorder_ids`.  Returns the pushed pairs
(in order) and the extended map. -/
def collectLeafIds : List String → List (String × Nat) →
    List (Nat × Bool) × List (String × Nat)
  | [], m => ([], m)
  | n :: ns, m =>
    let rv := mapBracket m n
    let rest := collectLeafIds ns rv.2
    ((rv.1, true) :: rest.1, rest.2)

/-- Lexicographic order on `pair<int, bool>`, as `std::sort` uses. -/
def pairLe (a b : Nat × Bool) : Bool :=
  a.1 < b.1 || (a.1 == b.1 && (!a.2 || b.2))

/-- Insertion into a sorted list; `sortPairs` models
`std::sort(preorder_ids.begin(), preorder_ids.end())` — a sorted
rearrangement of the same elements. -/
def insertSorted (a : Nat × Bool) : List (Nat × Bool) → List (Nat × Bool)
  | [] => [a]
  | b :: bs => if pairLe a b then a :: b :: bs else b :: insertSorted a bs

/-- Models `std::sort` on the `preorder_ids` vector. -/
def sortPairs : List (Nat × Bool) → List (Nat × Bool)
  | [] => []
  | a :: as => insertSorted a (sortPairs as)

/-- The RMQ query loop of `SpiderpigFunction` (plausibility.cpp, lines
104-117): for `i` from `0` while `i < LeafCount - 1`, look up the Euler
indices of `preorder_ids[i]` and `preorder_ids[i+1]`, query the RMQ, and
push the preorder id found at the returned Euler index (paired with `0`,
i.e. `false`) onto the vector.  `query`, `p2e` (the
`preorder_to_euler_map`) and `euler` (the `euler_array`) are the
surrounding data structures, abstracted as functions; `steps` counts the
remaining iterations. -/
def queryLoop (query : Nat → Nat → Nat) (p2e : Nat → Nat) (euler : Nat → Nat) :
    Nat → Nat → List (Nat × Bool) → List (Nat × Bool)
  | _, 0, v => v
  | i, steps + 1, v =>
    let x := p2e (v.getD i (0, false)).1
    let y := p2e (v.getD (i + 1) (0, false)).1
    let res := query x y
    queryLoop query p2e euler (i + 1) steps (v ++ [(euler res, false)])

/-- The `preorder_ids` vector of `SpiderpigFunction` right after the query
loop (just before the `assert` on line 120): leaves of the small tree are
collected against the reference map, sorted, and then `LeafCount - 1`
query iterations run. -/
def SpiderpigPreorderIds (query : Nat → Nat → Nat) (p2e : Nat → Nat)
    (euler : Nat → Nat) (small : RTree) (refMap : List (String × Nat)) :
    List (Nat × Bool) :=
  let pairs := (collectLeafIds small.Leaves refMap).1
  let sorted := sortPairs pairs
  queryLoop query p2e euler 0 (small.LeafCount - 1) sorted

-- =============================================================================
--     Euler tour of the reference tree
-- =============================================================================

mutual

/-- Modelled from the spec: the Euler-tour iterator
(`Tree::BeginEulertour()` / `EndEulertour()`) is not part of the sources;
the spec describes it as a walk that "visits each edge twice (once per
direction), producing a sequence where a node of degree `d` appears `d`
times".  For a non-root node entered with preorder id `c`: visit the node,
then each child subtree in turn, revisiting the node after each child.
The preorder counter is threaded exactly as in the id-assignment loop;
the returned pair is (ids pushed into `euler_ids`, next free preorder id). -/
def eulerSub : RTree → Nat → List Nat × Nat
  | .node _ cs, c =>
    let r := eulerSubList c cs (c + 1)
    (c :: r.1, r.2)

def eulerSubList : Nat → List RTree → Nat → List Nat × Nat
  | _, [], c => ([], c)
  | i, t :: ts, c =>
    let r1 := eulerSub t c
    let r2 := eulerSubList i ts r1.2
    (r1.1 ++ [i] ++ r2.1, r2.2)

end

/-- Modelled from the spec: at the root (degree = number of children,
"counting the root specially") the walk visits the root once before each
child subtree and ends back at the start link without a further visit. -/
def eulerRootList : Nat → List RTree → Nat → List Nat × Nat
  | _, [], c => ([], c)
  | i, t :: ts, c =>
    let r1 := eulerSub t c
    let r2 := eulerRootList i ts r1.2
    ((i :: r1.1) ++ r2.1, r2.2)

/-- The `euler_ids` vector collected by the Euler traversal of
`SpiderpigFunction` (plausibility.cpp, lines 45-69): the preorder ids
visited by the Euler tour of the reference tree (root id `0`). -/
def EulerIds : RTree → List Nat
  | .node _ cs => (eulerRootList 0 cs 1).1

-- =============================================================================
--     Lemmas: plausibility loop sizes
-- =============================================================================

/-- Every tree has at least one node. -/
theorem nodeCount_pos (t : RTree) : 1 ≤ t.NodeCount := by
  cases t with
  | node name cs => simp [RTree.NodeCount]

/-- The leaf-collection loop pushes one pair per small-tree leaf. -/
theorem collectLeafIds_length : ∀ (ns : List String) (m : List (String × Nat)),
    (collectLeafIds ns m).1.length = ns.length
  | [], _ => rfl
  | n :: ns, m => by
    simp [collectLeafIds, collectLeafIds_length ns]

/-- Inserting into a sorted list grows it by one element. -/
theorem insertSorted_length (a : Nat × Bool) :
    ∀ l : List (Nat × Bool), (insertSorted a l).length = l.length + 1
  | [] => rfl
  | b :: bs => by
    simp only [insertSorted]
    split
    · simp
    · simp [insertSorted_length a bs]

/-- Sorting does not change the number of elements. -/
theorem sortPairs_length : ∀ l : List (Nat × Bool),
    (sortPairs l).length = l.length
  | [] => rfl
  | a :: as => by
    simp [sortPairs, insertSorted_length, sortPairs_length as]

/-- Each iteration of the RMQ query loop appends exactly one entry. -/
theorem queryLoop_length (query : Nat → Nat → Nat) (p2e : Nat → Nat)
    (euler : Nat → Nat) : ∀ (steps i : Nat) (v : List (Nat × Bool)),
    (queryLoop query p2e euler i steps v).length = v.length + steps
  | 0, _, _ => rfl
  | steps + 1, i, v => by
    simp only [queryLoop]
    rw [queryLoop_length query p2e euler steps]
    simp
    omega

-- =============================================================================
--     Lemmas: Euler-tour length
-- =============================================================================

mutual

/-- The Euler walk of a non-root subtree with `n` nodes pushes `2n - 1`
ids (the node once before each child and once more per return). -/
theorem eulerSub_length : ∀ (t : RTree) (c : Nat),
    (eulerSub t c).1.length = 2 * t.NodeCount - 1
  | .node name cs, c => by
    have h := eulerSubList_length c cs (c + 1)
    have hp : ∀ ts : List RTree, 0 ≤ nodeCountList ts := fun _ => Nat.zero_le _
    simp only [eulerSub, RTree.NodeCount, List.length_cons, h]
    omega

/-- Walking a list of subtrees below a node with id `i` pushes `2k` ids,
where `k` is the total node count of the subtrees. -/
theorem eulerSubList_length : ∀ (i : Nat) (ts : List RTree) (c : Nat),
    (eulerSubList i ts c).1.length = 2 * nodeCountList ts
  | _, [], _ => rfl
  | i, t :: ts, c => by
    have h1 := eulerSub_length t c
    have h2 := eulerSubList_length i ts (eulerSub t c).2
    have hp := nodeCount_pos t
    have hn : nodeCountList (t :: ts) = t.NodeCount + nodeCountList ts := rfl
    simp only [eulerSubList, List.length_append, List.length_cons,
      List.length_nil, h1, h2]
    omega

end

/-- At the root the walk pushes `2k` ids for `k` nodes below the root. -/
theorem eulerRootList_length : ∀ (i : Nat) (ts : List RTree) (c : Nat),
    (eulerRootList i ts c).1.length = 2 * nodeCountList ts
  | _, [], _ => rfl
  | i, t :: ts, c => by
    have h1 := eulerSub_length t c
    have h2 := eulerRootList_length i ts (eulerSub t c).2
    have hp := nodeCount_pos t
    have hn : nodeCountList (t :: ts) = t.NodeCount + nodeCountList ts := rfl
    simp only [eulerRootList, List.length_append, List.length_cons, h1, h2]
    omega

/-- The Euler traversal of a tree with `N` nodes collects `2N - 2` ids. -/
theorem eulerIds_length (t : RTree) :
    (EulerIds t).length = 2 * t.NodeCount - 2 := by
  cases t with
  | node name cs =>
    simp only [EulerIds, RTree.NodeCount, eulerRootList_length]
    omega

-- =============================================================================
--     Lemmas: the default-inserting map lookup
-- =============================================================================

/-- Appending an entry for a different key does not make a lookup succeed. -/
theorem lookupName_append_ne (m : List (String × Nat)) (k k2 : String) (v : Nat)
    (hne : k2 ≠ k) (h : lookupName m k = none) :
    lookupName (m ++ [(k2, v)]) k = none := by
  induction m with
  | nil =>
    have hb : (k2 == k) = false := by simpa using hne
    simp [lookupName, List.find?, hb]
  | cons p rest ih =>
    simp only [lookupName, List.map_eq_map, List.cons_append, List.find?] at h ⊢
    by_cases hp : p.1 == k
    · simp [hp] at h
    · simp only [hp] at h ⊢
      exact ih h

/-- If some leaf name of the small tree is absent from the reference map,
the collection loop still runs to completion and records preorder id `0`
(the value default-inserted by `operator[]`) for that leaf. -/
theorem collectLeafIds_missing : ∀ (ns : List String) (m : List (String × Nat))
    (name : String), name ∈ ns → lookupName m name = none →
    (0, true) ∈ (collectLeafIds ns m).1
  | [], _, _, hmem, _ => by cases hmem
  | n :: ns, m, name, hmem, hnone => by
    simp only [collectLeafIds]
    by_cases he : n = name
    · subst he
      simp only [mapBracket, hnone]
      exact List.mem_cons_self _ _
    · have hmem2 : name ∈ ns := by
        cases hmem with
        | head => exact absurd rfl he
        | tail _ h => exact h
      apply List.mem_cons_of_mem
      apply collectLeafIds_missing ns _ name hmem2
      unfold mapBracket
      cases hl : lookupName m n with
      | some v => simpa [hl] using hnone
      | none => simp only [hl]; exact lookupName_append_ne m name n 0 he hnone

-- =============================================================================
--     Claims C1, C4, C5
-- =============================================================================

/-- C1, counterexample. The claim says a small-tree leaf name that is
absent from the reference leaf map makes the plausibility check fail
fatally, producing no answer and not proceeding with a default preorder id.
In the code, `reference_map[it.Node()->name]` uses `std::map::operator[]`,
which default-inserts `0` for the missing name: for reference tree
`(A,B);` (leaf map `A ↦ 1`, `B ↦ 2`) and a small tree with leaves `A`
and `X`, the collection loop completes and records the pair `(0, 1)` for
the unknown leaf `X` instead of failing. -/
theorem claim_C1_counterexample :
    lookupName (RefMapOf (.node "" [.node "A" [], .node "B" []])) "X" = none ∧
    (collectLeafIds (RTree.Leaves (.node "" [.node "A" [], .node "X" []]))
        (RefMapOf (.node "" [.node "A" [], .node "B" []]))).1
      = [(1, true), (0, true)] ∧
    (0, true) ∈ (collectLeafIds (RTree.Leaves (.node "" [.node "A" [], .node "X" []]))
        (RefMapOf (.node "" [.node "A" [], .node "B" []]))).1 := by
  refine ⟨rfl, rfl, ?_⟩
  rw [show (collectLeafIds (RTree.Leaves (.node "" [.node "A" [], .node "X" []]))
      (RefMapOf (.node "" [.node "A" [], .node "B" []]))).1 = [(1, true), (0, true)] from rfl]
  simp

/-- C1, amended: if a small-tree leaf name is absent from the reference
leaf map, the check does not fail; `operator[]` default-inserts preorder
id `0` for the missing name and the collection loop completes (one pair
per leaf), proceeding with the default id `0` for that leaf. -/
theorem claim_C1_missing_leaf_defaults_to_zero (ns : List String)
    (m : List (String × Nat)) (name : String) (hmem : name ∈ ns)
    (hnone : lookupName m name = none) :
    (collectLeafIds ns m).1.length = ns.length ∧
    (0, true) ∈ (collectLeafIds ns m).1 :=
  ⟨collectLeafIds_length ns m, collectLeafIds_missing ns m name hmem hnone⟩

/-- C1, witness for the amended claim at the concrete trees of the
counterexample. -/
theorem claim_C1_witness :
    "X" ∈ RTree.Leaves (.node "" [.node "A" [], .node "X" []]) ∧
    lookupName (RefMapOf (.node "" [.node "A" [], .node "B" []])) "X" = none ∧
    ((collectLeafIds (RTree.Leaves (.node "" [.node "A" [], .node "X" []]))
        (RefMapOf (.node "" [.node "A" [], .node "B" []]))).1.length
      = (RTree.Leaves (.node "" [.node "A" [], .node "X" []])).length ∧
    (0, true) ∈ (collectLeafIds (RTree.Leaves (.node "" [.node "A" [], .node "X" []]))
        (RefMapOf (.node "" [.node "A" [], .node "B" []]))).1) :=
  ⟨by decide, rfl,
    claim_C1_missing_leaf_defaults_to_zero _ _ "X" (by decide) rfl⟩

/-- C4: starting from the `L` sorted leaf entries of the small tree
(`L = small_tree.LeafCount()`), the query loop performs `L - 1`
iterations, each appending exactly one entry, so afterwards
`preorder_ids` holds `2 * L - 1` entries and the assertion
`preorder_ids.size() == 2 * small_tree.LeafCount() - 1` on line 120
holds (for any RMQ structure and index maps, and any reference map). -/
theorem claim_C4_preorder_ids_size (query : Nat → Nat → Nat) (p2e : Nat → Nat)
    (euler : Nat → Nat) (small : RTree) (refMap : List (String × Nat))
    (h : 1 ≤ small.LeafCount) :
    (SpiderpigPreorderIds query p2e euler small refMap).length
      = 2 * small.LeafCount - 1 := by
  unfold SpiderpigPreorderIds
  rw [queryLoop_length, sortPairs_length, collectLeafIds_length]
  unfold RTree.LeafCount at h ⊢
  omega

/-- C4, witness: the concrete small tree `(A,B);` against the leaf map
`A ↦ 1, B ↦ 2` yields a vector of `2*2 - 1 = 3` entries. -/
theorem claim_C4_witness :
    1 ≤ RTree.LeafCount (.node "" [.node "A" [], .node "B" []]) ∧
    (SpiderpigPreorderIds (fun i j => min i j) id id
        (.node "" [.node "A" [], .node "B" []]) [("A", 1), ("B", 2)]).length
      = 2 * RTree.LeafCount (.node "" [.node "A" [], .node "B" []]) - 1 :=
  ⟨by decide,
    claim_C4_preorder_ids_size (fun i j => min i j) id id
      (.node "" [.node "A" [], .node "B" []]) [("A", 1), ("B", 2)] (by decide)⟩

/-- C5, counterexample. The claim says the Euler traversal of a reference
tree with `N` nodes pushes exactly `4N - 5` ids.  For the 3-node
reference tree `(A,B);` the tour (modelled from the spec: each edge
visited twice) is `[0, 1, 0, 2]` — 4 entries — while `4N - 5 = 7`, so
the length passed to the `RMQ_succinct` constructor does not equal the
number of ids collected. -/
theorem claim_C5_counterexample :
    EulerIds (.node "" [.node "A" [], .node "B" []]) = [0, 1, 0, 2] ∧
    (EulerIds (.node "" [.node "A" [], .node "B" []])).length = 4 ∧
    4 * (RTree.NodeCount (.node "" [.node "A" [], .node "B" []])) - 5 = 7 ∧
    (EulerIds (.node "" [.node "A" [], .node "B" []])).length
      ≠ 4 * (RTree.NodeCount (.node "" [.node "A" [], .node "B" []])) - 5 := by
  exact ⟨rfl, rfl, rfl, by decide⟩

/-- C5, amended: the Euler traversal of a reference tree with `N` nodes
pushes exactly `2N - 2` preorder ids.  This never exceeds the reserved
capacity `4N`, but for every tree with at least 2 nodes it differs from
the length `4 * reference_tree.NodeCount() - 5` that the code passes to
the `RMQ_succinct` constructor. -/
theorem claim_C5_euler_length (t : RTree) :
    (EulerIds t).length = 2 * t.NodeCount - 2 ∧
    2 * t.NodeCount - 2 ≤ 4 * t.NodeCount ∧
    (2 ≤ t.NodeCount → (EulerIds t).length ≠ 4 * t.NodeCount - 5) := by
  have h := eulerIds_length t
  refine ⟨h, by omega, fun h2 => ?_⟩
  rw [h]
  omega

/-- C5, witness for the amended claim at the 3-node reference tree. -/
theorem claim_C5_witness :
    2 ≤ RTree.NodeCount (.node "" [.node "A" [], .node "B" []]) ∧
    (EulerIds (.node "" [.node "A" [], .node "B" []])).length
      ≠ 4 * RTree.NodeCount (.node "" [.node "A" [], .node "B" []]) - 5 :=
  ⟨by decide,
    (claim_C5_euler_length (.node "" [.node "A" [], .node "B" []])).2.2 (by decide)⟩

-- =============================================================================
--     Newick serialization (src/tree/newick_processor.cpp)
-- =============================================================================

/-- `NewickBrokerElement` (spec §3; the defining header is not among the
sources): one flattened node record with name, branch length, ordered
comment and tag lists, and the depth used to recover structure.  `rank` —
Modelled from the spec: `rank()` returns the number of immediate children
of the element, `0` exactly for leaves. Branch lengths (`double` in the
code) are modelled as rationals. -/
structure NewickBrokerElement where
  name : String
  branch_length : ℚ
  comments : List String
  tags : List String
  depth : Int
  rank : Nat
deriving DecidableEq, Repr

/-- Value-initialized broker element (out-of-range access default). -/
def defaultBrokerElement : NewickBrokerElement :=
  { name := "", branch_length := 0, comments := [], tags := [], depth := 0, rank := 0 }

/-- The static print configuration of `NewickProcessor`
(newick_processor.hpp lines 156-161): the four print toggles and the
numeric `precision` field. -/
structure NewickPrintConfig where
  print_names : Bool
  print_branch_lengths : Bool
  print_comments : Bool
  print_tags : Bool
  precision : Int
deriving DecidableEq, Repr

/-- Modelled from the spec: `StringReplaceAll` (declared in utils.hpp; the
implementation file is not among the sources) replaces every occurrence of
`search` in the text by `repl`, scanning left to right.  The fuel is the
text length, enough for every real run (each step consumes at least one
character when `search` is nonempty). -/
def replaceAllGo (search repl : List Char) : Nat → List Char → List Char
  | _, [] => []
  | 0, text => text
  | fuel + 1, c :: rest =>
    if search ≠ [] ∧ (c :: rest).take search.length = search then
      repl ++ replaceAllGo search repl fuel ((c :: rest).drop search.length)
    else
      c :: replaceAllGo search repl fuel rest

/-- `StringReplaceAll` on strings. -/
def StringReplaceAll (text search repl : String) : String :=
  String.mk (replaceAllGo search.data repl.data text.data.length text.data)

/-- Left-pad a natural number to six digits, as the fractional part of
`%f` formatting. -/
def natPad6 (n : Nat) : String :=
  let s := toString n
  String.mk (List.replicate (6 - s.length) '0') ++ s

/-- Models `std::to_string(double)`, which is defined as
`sprintf("%f", value)`: fixed six fractional digits, rounding to nearest.
The configurable precision takes no part in it. -/
def toStdString (q : ℚ) : String :=
  let scaled := (q.num.natAbs * 1000000 * 2 + q.den) / (2 * q.den)
  (if q < 0 then "-" else "") ++ toString (scaled / 1000000) ++ "." ++ natPad6 (scaled % 1000000)

/-- `NewickProcessor::ElementToString` (newick_processor.cpp lines 59-79):
emit name (spaces replaced by underscores), `:branch_length` via
`std::to_string`, `[comment]`s and `tag`s in braces, each part gated by
its print toggle.  The `precision` member of the configuration is not
consulted anywhere in the body. -/
def ElementToString (cfg : NewickPrintConfig) (bn : NewickBrokerElement) : String :=
  (if cfg.print_names then StringReplaceAll bn.name " " "_" else "") ++
  (if cfg.print_branch_lengths then ":" ++ toStdString bn.branch_length else "") ++
  (if cfg.print_comments then String.join (bn.comments.map (fun c => "[" ++ c ++ "]")) else "") ++
  (if cfg.print_tags then String.join (bn.tags.map (fun t => "\x7b" ++ t ++ "\x7d")) else "")

/-- `NewickProcessor::ToStringRec` (newick_processor.cpp lines 25-57):
leaves (rank 0) print as their element text; an inner node recurses over
its immediate children — the positions after `pos` whose depth exceeds
`broker[pos]->depth`, stopping at the first position at most that depth,
keeping those of depth exactly one more — pushes each child string onto
the front of a deque (so the printed order is the reverse of the broker
order) and wraps them in parentheses followed by the element text.  The
fuel bounds the recursion depth; `broker.length` suffices since every
recursive call moves to a strictly larger position. -/
def ToStringRecGo (cfg : NewickPrintConfig) (broker : List NewickBrokerElement) :
    Nat → Nat → String
  | 0, _ => ""
  | fuel + 1, pos =>
    let e := broker.getD pos defaultBrokerElement
    if e.rank = 0 then ElementToString cfg e
    else
      let childIdx :=
        (((List.range broker.length).drop (pos + 1)).takeWhile
            (fun i => (broker.getD i defaultBrokerElement).depth > e.depth)).filter
          (fun i => (broker.getD i defaultBrokerElement).depth = e.depth + 1)
      let children := (childIdx.map (fun i => ToStringRecGo cfg broker fuel i)).reverse
      "(" ++ String.intercalate "," children ++ ")" ++ ElementToString cfg e

/-- `NewickProcessor::ToStringRec` run on a broker position. -/
def ToStringRec (cfg : NewickPrintConfig) (broker : List NewickBrokerElement)
    (pos : Nat) : String :=
  ToStringRecGo cfg broker broker.length pos

/-- C8: serialization is deterministic and idempotent — for a fixed broker
(built from a fixed tree) and fixed print flags, two invocations of
`ToStringRec` and of `ElementToString` produce character-for-character
identical text.  In the embedding the routines read only the broker and
the configuration (the C++ bodies never write to the broker or to any
other state), so a second invocation is the same pure computation. -/
theorem claim_C8_serialization_deterministic (cfg : NewickPrintConfig)
    (broker : List NewickBrokerElement) (pos : Nat) (bn : NewickBrokerElement) :
    (ToStringRec cfg broker pos).data = (ToStringRec cfg broker pos).data ∧
    (ElementToString cfg bn).data = (ElementToString cfg bn).data :=
  ⟨rfl, rfl⟩

/-- C9: the claim says the branch length is emitted according to the
configurable `NewickProcessor::precision`. In the code
`ElementToString` formats it with `std::to_string(bn->branch_length)`,
which always produces exactly six fractional digits; the `precision`
member is declared (newick_processor.hpp line 161) but never read, so
changing it cannot change a single emitted character: any two
configurations that differ only in `precision` yield identical output,
e.g. the element `A` with branch length `1/10` always prints as
`A:0.100000` (the branch length is written as `mkRat 1 10`). -/
theorem claim_C9_precision_never_used (p q : Int) (bn : NewickBrokerElement) :
    ElementToString ⟨true, true, false, false, p⟩ bn
      = ElementToString ⟨true, true, false, false, q⟩ bn ∧
    ElementToString ⟨true, true, false, false, 0⟩
        { name := "A", branch_length := mkRat 1 10, comments := [], tags := [],
          depth := 0, rank := 0 }
      = "A:0.100000" := by
  refine ⟨rfl, ?_⟩
  decide

-- =============================================================================
--     Claims C7 and C10
-- =============================================================================

/-- C7: for a well-formed node — one whose `next` chain returns to the
primary link, witnessed by the `Rank` loop terminating within the given
fuel — iterating the node's links from `BeginLinks()` until `EndLinks()`
yields exactly `Rank() + 1` links, and following `next` from the primary
link returns to it after exactly `Rank() + 1` steps. -/
theorem claim_C7_links_iteration_yields_rank_plus_one (next : Nat → Nat)
    (primary fuel r : Nat) (h : TreeNode.Rank next primary fuel = some r) :
    (∃ l, TreeNode.LinksList next primary fuel = some l ∧ l.length = r + 1) ∧
    next^[r + 1] primary = primary := by
  refine ⟨linksGo_of_rankGo next primary fuel primary [] 0 r rfl h, ?_⟩
  obtain ⟨-, hc⟩ := rankGo_cycle next primary fuel (next primary) 0 r h
  rw [Nat.sub_zero] at hc
  rw [Function.iterate_succ_apply]
  exact hc

/-- C7, witness: a node with three links in a cycle (`next` is the
successor modulo 3) has rank 2, link iteration yields 3 links, and three
`next` steps return to the primary link. -/
theorem claim_C7_witness :
    TreeNode.Rank (fun n => (n + 1) % 3) 0 5 = some 2 ∧
    ((∃ l, TreeNode.LinksList (fun n => (n + 1) % 3) 0 5 = some l ∧ l.length = 2 + 1) ∧
      (fun n => (n + 1) % 3)^[2 + 1] 0 = 0) :=
  ⟨by decide, claim_C7_links_iteration_yields_rank_plus_one (fun n => (n + 1) % 3) 0 5 2 (by decide)⟩

/-- C10: the boundary-checked bit accessors are total and side-effect-free
out of range — for `index >= size()`, `Get` returns `false` and `Set`,
`Unset` and `Flip` return the bitvector unchanged. -/
theorem claim_C10_bitvector_boundary_checks (b : Bitvector) (i : Nat)
    (h : i ≥ b.size_) :
    b.Get i = false ∧ b.Set i = b ∧ b.Unset i = b ∧ b.Flip i = b := by
  unfold Bitvector.Get Bitvector.Set Bitvector.Unset Bitvector.Flip
  simp [h]

/-- C10, witness: a three-bit vector with word `5` and the out-of-range
index `7`. -/
theorem claim_C10_witness :
    7 ≥ (Bitvector.mk 3 [5]).size_ ∧
    ((Bitvector.mk 3 [5]).Get 7 = false ∧
      (Bitvector.mk 3 [5]).Set 7 = Bitvector.mk 3 [5] ∧
      (Bitvector.mk 3 [5]).Unset 7 = Bitvector.mk 3 [5] ∧
      (Bitvector.mk 3 [5]).Flip 7 = Bitvector.mk 3 [5]) :=
  ⟨by decide, claim_C10_bitvector_boundary_checks (Bitvector.mk 3 [5]) 7 (by decide)⟩

-- =============================================================================
--     Lexer (lib/utils/lexer.cpp with the NewickLexer overrides)
-- =============================================================================

/-- `LexerTokenType` (the enum of lexer.hpp, as used throughout lexer.cpp). -/
inductive LexerTokenType where
  | kError
  | kUnknown
  | kWhite
  | kComment
  | kSymbol
  | kNumber
  | kString
  | kBracket
  | kOperator
  | kTag
deriving DecidableEq, Repr

/-- A lexer token: its type, the source position it was pushed with (the
character offset; line/column bookkeeping carries no extra information
here), and its value — either the scanned substring or the error
message, exactly the two `PushToken` overloads. -/
structure LexerToken where
  ttype : LexerTokenType
  pos : Nat
  value : List Char
deriving DecidableEq, Repr

/-- `LexerToken::IsError`. -/
def LexerToken.IsError (t : LexerToken) : Bool := t.ttype == .kError

/-- `LexerToken::IsBracket`. -/
def LexerToken.IsBracket (t : LexerToken) : Bool := t.ttype == .kBracket

/-- The per-object lexer configuration: the start-character type table
(`SetCharType`/`GetCharType`) and the option flags of the `Lexer` class,
set by the `NewickLexer` constructor for Newick input. -/
structure LexerConfig where
  charType : Char → LexerTokenType
  include_whitespace : Bool
  include_comments : Bool
  glue_sign_to_number : Bool
  trim_quotation_marks : Bool
  use_string_escape : Bool
  use_string_doubled_quotes : Bool
  include_tags : Bool

/-- The mutable scanning state: the position `itr_` and the token list
`tokens_`. -/
structure LexState where
  itr : Nat
  tokens : List LexerToken
deriving DecidableEq, Repr

/-- What one scanner call does to the state: the new position, the tokens
it pushed (appended to `tokens_` by the caller), and its return value. -/
structure ScanRes where
  itr : Nat
  app : List LexerToken
  ret : Bool
deriving DecidableEq, Repr

/-- `GetChar(ofs)`: reading at or past the end of the text yields the
terminating `'\0'` of the underlying buffer. -/
def getCharAt (text : List Char) (i : Nat) : Char := text.getD i (Char.ofNat 0)

/-- `IsEnd()` at position `i`. -/
def isEndAt (text : List Char) (i : Nat) : Bool := text.length ≤ i

/-- The substring `[a, b)` of the text, as `PushToken(type, a, b)` stores it. -/
def substr (text : List Char) (a b : Nat) : List Char := (text.drop a).take (b - a)

/-- `strncmp(pat, text + i, strlen(pat)) == 0`. -/
def matchAt (text : List Char) (i : Nat) (pat : List Char) : Bool :=
  (text.drop i).take pat.length == pat

/-- `CharIsDigit`. -/
def charIsDigit (c : Char) : Bool := '0' ≤ c && c ≤ '9'

/-- `CharIsSign`. -/
def charIsSign (c : Char) : Bool := c == '+' || c == '-'

/-- `CharMatch(c, 'e')` (case-insensitive comparison with `e`). -/
def charMatchE (c : Char) : Bool := c == 'e' || c == 'E'

/-- A `while (!IsEnd() && p(GetChar())) NextChar();` loop.  The fuel is
always called with `text.length + 1`, which covers every real run. -/
def skipWhile (text : List Char) (p : Char → Bool) : Nat → Nat → Nat
  | i, 0 => i
  | i, fuel + 1 =>
    if !isEndAt text i && p (getCharAt text i) then skipWhile text p (i + 1) fuel else i

/-- The middle loop of `ScanFromTo`: advance until the `to` string matches
or the end is reached. -/
def skipUntilMatch (text : List Char) (toP : List Char) : Nat → Nat → Nat
  | i, 0 => i
  | i, fuel + 1 =>
    if !isEndAt text i && !matchAt text i toP then skipUntilMatch text toP (i + 1) fuel else i

/-- `Lexer::ScanFromTo` (lexer.cpp lines 237-267): returns the new
position and whether both delimiters were found. -/
def ScanFromTo (text : List Char) (fromP toP : List Char) (i : Nat) : Nat × Bool :=
  if isEndAt text i || !matchAt text i fromP then
    (i, false)
  else
    let i1 := i + fromP.length
    let i2 := skipUntilMatch text toP i1 (text.length + 1)
    if isEndAt text i2 then (i2, false) else (i2 + toP.length, true)

/-- Error messages pushed by the scanners. -/
def msgInvalidChar : List Char := "Invalid character.".data

def msgMalformedNumber : List Char := "Malformed number.".data

def msgMalformedString : List Char := "Malformed string.".data

def msgCloseComment : List Char := "Closing comment without opening it.".data

def msgCommentNotClosed : List Char := "Comment not closed.".data

def msgCloseTag : List Char := "Closing tag without opening tag.".data

def msgOpenTag : List Char := "Opening tag without closing tag.".data

/-- The opening curly brace character. -/
def braceOpen : Char := Char.ofNat 123

/-- The closing curly brace character. -/
def braceClose : Char := Char.ofNat 125

/-- The single-quote character (the Newick string delimiter). -/
def quoteChar : Char := Char.ofNat 39

/-- The backslash character. -/
def backslashChar : Char := Char.ofNat 92

/-- `Lexer::ScanWhitespace` (lexer.cpp lines 309-322). -/
def ScanWhitespace (cfg : LexerConfig) (text : List Char) (i : Nat) : ScanRes :=
  let j := skipWhile text (fun c => cfg.charType c == .kWhite) i (text.length + 1)
  let found := decide (i < j)
  if cfg.include_whitespace && found then
    ⟨j, [⟨.kWhite, i, substr text i j⟩], found⟩
  else
    ⟨j, [], found⟩

/-- `NewickLexer::ScanComment` (newick_processor.hpp lines 69-85): a stray
`]` or an unclosed `[` pushes an error token; a found comment pushes a
comment token when `include_comments` is set. -/
def ScanComment (cfg : LexerConfig) (text : List Char) (i : Nat) : ScanRes :=
  if getCharAt text i == ']' then
    ⟨i, [⟨.kError, i, msgCloseComment⟩], false⟩
  else
    let r := ScanFromTo text ['['] [']'] i
    if !r.2 && getCharAt text r.1 == '[' then
      ⟨r.1, [⟨.kError, r.1, msgCommentNotClosed⟩], false⟩
    else if r.2 && cfg.include_comments then
      ⟨r.1, [⟨.kComment, i + 1, substr text (i + 1) (r.1 - 1)⟩], true⟩
    else
      ⟨r.1, [], r.2⟩

/-- `Lexer::ScanSymbol` (lexer.cpp lines 347-355). -/
def ScanSymbol (cfg : LexerConfig) (text : List Char) (i : Nat) : ScanRes :=
  let j := skipWhile text (fun c => cfg.charType c == .kSymbol) i (text.length + 1)
  ⟨j, [⟨.kSymbol, i, substr text i j⟩], true⟩

/-- `Lexer::ScanUnknown` (lexer.cpp lines 283-291). -/
def ScanUnknown (cfg : LexerConfig) (text : List Char) (i : Nat) : ScanRes :=
  let j := skipWhile text (fun c => cfg.charType c == .kUnknown) i (text.length + 1)
  ⟨j, [⟨.kUnknown, i, substr text i j⟩], true⟩

/-- The scanning loop of `Lexer::ScanNumber` (lexer.cpp lines 377-429),
with its `found_d`/`found_e` flags.  Returns the exit position and the
`err` flag: `err` is set only when the loop breaks at its very first
character (`GetPosition() == start`), in the exponent, sign and
default branches. -/
def numLoop (text : List Char) (start : Nat) : Nat → Bool → Bool → Nat → Nat × Bool
  | i, _, _, 0 => (i, false)
  | i, fd, fe, fuel + 1 =>
    if isEndAt text i then
      (i, false)
    else
      let c := getCharAt text i
      if charIsDigit c then
        numLoop text start (i + 1) fd fe fuel
      else if c == '.' then
        if fd || isEndAt text (i + 1) || !charIsDigit (getCharAt text (i + 1)) then
          (i, false)
        else
          numLoop text start (i + 1) true fe fuel
      else if charMatchE c then
        if fe || i == 0 || !charIsDigit (getCharAt text (i - 1)) || isEndAt text (i + 1)
            || (!charIsDigit (getCharAt text (i + 1)) && !charIsSign (getCharAt text (i + 1))) then
          (i, i == start)
        else
          numLoop text start (i + 1) fd true fuel
      else if charIsSign c then
        if !(i == start && !isEndAt text (i + 1) && charIsDigit (getCharAt text (i + 1)))
            && !(fe && charMatchE (getCharAt text (i - 1)) && !isEndAt text (i + 1)
                  && charIsDigit (getCharAt text (i + 1))) then
          (i, i == start)
        else
          numLoop text start (i + 1) fd fe fuel
      else
        (i, i == start)

/-- `Lexer::ScanNumber` (lexer.cpp lines 366-439): on `err` push an error
token at the exit position, otherwise push the scanned substring as a
number token. -/
def ScanNumber (text : List Char) (i : Nat) : ScanRes :=
  let r := numLoop text i i false false (text.length + 1)
  if r.2 then
    ⟨r.1, [⟨.kError, r.1, msgMalformedNumber⟩], false⟩
  else
    ⟨r.1, [⟨.kNumber, i, substr text i r.1⟩], true⟩

/-- `NewickLexer::ScanNumber` (newick_processor.hpp lines 87-96): skip the
leading `:` and scan as a plain number. -/
def NewickScanNumber (text : List Char) (i : Nat) : ScanRes :=
  ScanNumber text (i + 1)

/-- The scanning loop of `Lexer::ScanString` (lexer.cpp lines 469-497).
State: position, `jump`, `found_e`, `found_q`.  Escapes and doubled
quote marks advance two characters with `jump` set; the closing quote
advances one and exits; a plain character clears `jump`. -/
def strLoop (cfg : LexerConfig) (text : List Char) (q : Char) :
    Nat → Bool → Bool → Bool → Nat → Nat × Bool × Bool × Bool
  | i, jump, fe, fq, 0 => (i, jump, fe, fq)
  | i, jump, fe, fq, fuel + 1 =>
    if isEndAt text i then
      (i, jump, fe, fq)
    else if getCharAt text i == backslashChar && cfg.use_string_escape then
      strLoop cfg text q (i + 2) true true fq fuel
    else if getCharAt text i == q && getCharAt text (i + 1) == q
        && cfg.use_string_doubled_quotes then
      strLoop cfg text q (i + 2) true fe true fuel
    else if getCharAt text i == q then
      (i + 1, jump, fe, fq)
    else
      strLoop cfg text q (i + 1) false fe fq fuel

/-- Modelled from the spec: `StringDeescape` (utils.cpp is not among the
sources; the spec says strings "support optional backslash-escaping"):
drops each escaping backslash, keeping the escaped character.  Dead code
for Newick input, where `use_string_escape` is `false`. -/
def stringDeescape : List Char → List Char
  | [] => []
  | c :: rest =>
    if c == backslashChar then
      match rest with
      | [] => []
      | d :: rest2 => d :: stringDeescape rest2
    else
      c :: stringDeescape rest

/-- `Lexer::ScanString` (lexer.cpp lines 452-533). -/
def ScanString (cfg : LexerConfig) (text : List Char) (i : Nat) : ScanRes :=
  let qmark := getCharAt text i
  let i1 := i + 1
  if isEndAt text i1 then
    ⟨i1, [⟨.kError, i1 - 1, msgMalformedString⟩], false⟩
  else
    let r := strLoop cfg text qmark i1 false false false (text.length + 2)
    let j := r.1
    if r.2.1 || (isEndAt text j && !(getCharAt text (j - 1) == qmark)) then
      ⟨j, [⟨.kError, i1 - 1, msgMalformedString⟩], false⟩
    else
      let res0 := substr text i1 (j - 1)
      let res1 := if r.2.2.1 && cfg.use_string_escape then stringDeescape res0 else res0
      let res2 :=
        if r.2.2.2 && cfg.use_string_doubled_quotes then
          replaceAllGo [qmark, qmark] [qmark] res1.length res1
        else
          res1
      let res3 := if !cfg.trim_quotation_marks then qmark :: (res2 ++ [qmark]) else res2
      ⟨j, [⟨.kString, i1 - 1, res3⟩], true⟩

/-- `Lexer::ScanOperator` (lexer.cpp lines 550-563): a sign glued to a
following digit is scanned as a number (through the virtual `ScanNumber`,
i.e. the `NewickLexer` override); otherwise a one-character operator
token is pushed. -/
def ScanOperator (cfg : LexerConfig) (text : List Char) (i : Nat) : ScanRes :=
  if charIsSign (getCharAt text i) && cfg.glue_sign_to_number
      && !isEndAt text (i + 1) && charIsDigit (getCharAt text (i + 1)) then
    NewickScanNumber text i
  else
    ⟨i + 1, [⟨.kOperator, i, substr text i (i + 1)⟩], true⟩

/-- `Lexer::ScanBracket` (lexer.cpp lines 570-575). -/
def ScanBracket (text : List Char) (i : Nat) : ScanRes :=
  ⟨i + 1, [⟨.kBracket, i, substr text i (i + 1)⟩], true⟩

/-- `NewickLexer::ScanTag` (newick_processor.hpp lines 98-119). -/
def ScanTag (cfg : LexerConfig) (text : List Char) (i : Nat) : ScanRes :=
  if getCharAt text i == braceClose then
    ⟨i, [⟨.kError, i, msgCloseTag⟩], false⟩
  else
    let r := ScanFromTo text [braceOpen] [braceClose] i
    if !r.2 then
      ⟨r.1, [⟨.kError, i, msgOpenTag⟩], false⟩
    else if cfg.include_tags then
      ⟨r.1, [⟨.kTag, i + 1, substr text (i + 1) (r.1 - 1)⟩], true⟩
    else
      ⟨r.1, [], true⟩

/-- `!tokens_.empty() && tokens_.back().IsError()`. -/
def lastIsError (l : List LexerToken) : Bool :=
  match l.getLast? with
  | some t => t.IsError
  | none => false

/-- The `while (ScanWhitespace() || ScanComment()) continue;` loop at the
top of `ProcessStep` (lexer.cpp line 138), accumulating pushed tokens. -/
def wcLoop (cfg : LexerConfig) (text : List Char) :
    Nat → List LexerToken → Nat → Nat × List LexerToken
  | i, toks, 0 => (i, toks)
  | i, toks, fuel + 1 =>
    let w := ScanWhitespace cfg text i
    if w.ret then
      wcLoop cfg text w.itr (toks ++ w.app) fuel
    else
      let c := ScanComment cfg text w.itr
      if c.ret then
        wcLoop cfg text c.itr (toks ++ w.app ++ c.app) fuel
      else
        (c.itr, toks ++ w.app ++ c.app)

/-- `Lexer::ProcessStep` (lexer.cpp lines 131-204): skip interleaved
whitespace and comments; stop on an error token or the end of input;
push an error token for a character of type `kError`; otherwise dispatch
the scanner selected by the current character's type (the virtual
`ScanNumber`/`ScanComment`/`ScanTag` are the `NewickLexer` overrides; the
`kWhite`/`kComment` switch arms hold failed `assert(false)` statements
and push nothing); finally return `false` iff the token list is empty or
ends in an error token. -/
def ProcessStep (cfg : LexerConfig) (text : List Char) (s : LexState) :
    LexState × Bool :=
  if isEndAt text s.itr then
    (s, false)
  else
    let wc := wcLoop cfg text s.itr s.tokens (text.length + 1)
    let s1 : LexState := ⟨wc.1, wc.2⟩
    if lastIsError s1.tokens then
      (s1, false)
    else if isEndAt text s1.itr then
      (s1, false)
    else
      let t := cfg.charType (getCharAt text s1.itr)
      if t == .kError then
        (⟨s1.itr, s1.tokens ++ [⟨.kError, s1.itr, msgInvalidChar⟩]⟩, false)
      else
        let r : ScanRes :=
          match t with
          | .kSymbol => ScanSymbol cfg text s1.itr
          | .kNumber => NewickScanNumber text s1.itr
          | .kString => ScanString cfg text s1.itr
          | .kBracket => ScanBracket text s1.itr
          | .kOperator => ScanOperator cfg text s1.itr
          | .kTag => ScanTag cfg text s1.itr
          | .kUnknown => ScanUnknown cfg text s1.itr
          | _ => ⟨s1.itr, [], false⟩
        let s2 : LexState := ⟨r.itr, s1.tokens ++ r.app⟩
        if s2.tokens.isEmpty || lastIsError s2.tokens then
          (s2, false)
        else
          (s2, true)

/-- The `while (!IsEnd()) { if (!ProcessStep()) return tokens_.empty(); }`
driver of `Lexer::ProcessString` (lexer.cpp lines 83-89).  The fuel
`text.length + 1` covers every terminating run (each continuing step
advances the position). -/
def psLoop (cfg : LexerConfig) (text : List Char) : LexState → Nat → LexState × Bool
  | s, 0 => (s, true)
  | s, fuel + 1 =>
    if isEndAt text s.itr then
      (s, true)
    else
      let r := ProcessStep cfg text s
      if r.2 then psLoop cfg text r.1 fuel else (r.1, r.1.tokens.isEmpty)

/-- `Lexer::ProcessString` (non-stepwise): initialize the state and drain
the input. -/
def ProcessString (cfg : LexerConfig) (text : List Char) : LexState × Bool :=
  psLoop cfg text ⟨0, []⟩ (text.length + 1)

/-- The stepwise protocol: `ProcessString(text, true)` runs `Init` and the
first `ProcessStep`, and the caller then calls `ProcessStep` repeatedly
until it returns `false`.  This is that whole run. -/
def StepwiseRun (cfg : LexerConfig) (text : List Char) : Nat → LexState → LexState
  | 0, s => s
  | fuel + 1, s =>
    let r := ProcessStep cfg text s
    if r.2 then StepwiseRun cfg text fuel r.1 else r.1

/-- The token list after lexing stepwise to completion. -/
def ProcessStepwise (cfg : LexerConfig) (text : List Char) : LexState :=
  StepwiseRun cfg text (text.length + 1) ⟨0, []⟩

/-- `Lexer::ValidateBrackets` (lexer.cpp lines 647-670): the running loop
over the token list with its `std::stack<char>`.  Note the function
returns `true` after the loop without inspecting the remaining stack. -/
def ValidateBracketsGo : List LexerToken → List Char → Bool
  | [], _ => true
  | t :: ts, stk =>
    if !t.IsBracket then
      ValidateBracketsGo ts stk
    else
      let c := t.value.headD (Char.ofNat 0)
      let stk1 := if c == '(' then ')' :: stk else stk
      let stk2 := if c == '[' then ']' :: stk1 else stk1
      let stk3 := if c == braceOpen then braceClose :: stk2 else stk2
      let stk4 := if c == '<' then '>' :: stk3 else stk3
      if c == ')' || c == ']' || c == braceClose || c == '>' then
        match stk4 with
        | [] => false
        | top :: rest => if c != top then false else ValidateBracketsGo ts rest
      else
        ValidateBracketsGo ts stk4

/-- `Lexer::ValidateBrackets` on a finished token sequence. -/
def ValidateBrackets (tokens : List LexerToken) : Bool :=
  ValidateBracketsGo tokens []

/-- The `NewickLexer` start-character table, as set by its constructor
(newick_processor.hpp lines 35-54) on top of the base defaults.  The base
`Lexer` table is not among the sources; its defaults are Modelled from
the spec: alphabetic characters start symbols (labels), whitespace is
always consumed, and "any character with no configured type is an
unknown token". -/
def newickCharType (c : Char) : LexerTokenType :=
  if c == '[' || c == ']' then .kComment
  else if c == braceOpen || c == braceClose then .kTag
  else if c == '(' || c == ')' then .kBracket
  else if c == ',' || c == ';' then .kOperator
  else if c == quoteChar then .kString
  else if c == ':' then .kNumber
  else if charIsDigit c then .kSymbol
  else if "!\"#$%&*+-./<=>?@\\^_`|~".data.contains c then .kSymbol
  else if c.isAlpha then .kSymbol
  else if c == ' ' || c == Char.ofNat 9 || c == Char.ofNat 10 || c == Char.ofNat 13 then .kWhite
  else .kUnknown

/-- The `NewickLexer` configuration (constructor, newick_processor.hpp
lines 35-66). -/
def newickConfig : LexerConfig :=
  { charType := newickCharType
    include_whitespace := false
    include_comments := true
    glue_sign_to_number := false
    trim_quotation_marks := true
    use_string_escape := false
    use_string_doubled_quotes := true
    include_tags := true }

-- =============================================================================
--     Token-list invariants (claim C3 machinery)
-- =============================================================================

/-- The token list contains no error token. -/
def errFreeB (l : List LexerToken) : Bool := l.all (fun t => !t.IsError)

/-- Every token except possibly the last is not an error token. -/
def okLastB (l : List LexerToken) : Bool := errFreeB l.dropLast

theorem errFreeB_append (l m : List LexerToken) :
    errFreeB (l ++ m) = (errFreeB l && errFreeB m) := by
  simp [errFreeB]

theorem errFreeB_dropLast (l : List LexerToken) (h : errFreeB l = true) :
    errFreeB l.dropLast = true := by
  rw [errFreeB, List.all_eq_true] at h ⊢
  exact fun t ht => h t (List.dropLast_subset l ht)

theorem okLastB_of_errFree (l : List LexerToken) (h : errFreeB l = true) :
    okLastB l = true :=
  errFreeB_dropLast l h

theorem okLastB_append (l app : List LexerToken) (h : errFreeB l = true)
    (hlen : app.length ≤ 1) : okLastB (l ++ app) = true := by
  rcases app with _ | ⟨a, _ | ⟨b, r⟩⟩
  · simpa [okLastB] using errFreeB_dropLast l h
  · rw [okLastB, List.dropLast_concat]
    exact h
  · simp at hlen

theorem errFreeB_of_okLast : ∀ l : List LexerToken,
    okLastB l = true → lastIsError l = false → errFreeB l = true
  | [], _, _ => rfl
  | [a], h1, h2 => by
    simp [lastIsError, List.getLast?] at h2
    simp [errFreeB, h2]
  | a :: b :: r, h1, h2 => by
    rw [okLastB, List.dropLast_cons_of_ne_nil (by simp)] at h1
    rw [lastIsError, List.getLast?_cons_cons] at h2
    have h1a : (!a.IsError) = true ∧ errFreeB (b :: r).dropLast = true := by
      simpa [errFreeB] using h1
    have htail := errFreeB_of_okLast (b :: r) h1a.2 (by rw [lastIsError]; exact h2)
    simp only [errFreeB, List.all_cons, Bool.and_eq_true] at htail ⊢
    exact ⟨h1a.1, htail⟩

theorem errCount_le_one_of_okLast : ∀ l : List LexerToken,
    okLastB l = true → (l.filter (fun t => t.IsError)).length ≤ 1
  | [], _ => by simp
  | [a], _ => by
    simp only [List.filter]
    cases h : a.IsError <;> simp
  | a :: b :: r, h => by
    rw [okLastB, List.dropLast_cons_of_ne_nil (by simp)] at h
    have ha : (!a.IsError) = true ∧ errFreeB (b :: r).dropLast = true := by
      simpa [errFreeB] using h
    have hrec := errCount_le_one_of_okLast (b :: r) ha.2
    simp only [List.filter]
    rw [Bool.not_eq_true'] at ha
    rw [ha.1]
    exact hrec

-- Per-scanner facts: what each scanner may append.

theorem scanWhitespace_app (cfg : LexerConfig) (text : List Char) (i : Nat) :
    errFreeB (ScanWhitespace cfg text i).app = true ∧
    (ScanWhitespace cfg text i).app.length ≤ 1 := by
  rw [ScanWhitespace]
  split <;> simp [errFreeB, LexerToken.IsError]

theorem scanComment_app (cfg : LexerConfig) (text : List Char) (i : Nat) :
    (ScanComment cfg text i).app.length ≤ 1 ∧
    ((ScanComment cfg text i).ret = true → errFreeB (ScanComment cfg text i).app = true) := by
  simp only [ScanComment]
  split
  · simp
  · split
    · simp
    · split <;> simp [errFreeB, LexerToken.IsError]

theorem scanSymbol_app (cfg : LexerConfig) (text : List Char) (i : Nat) :
    (ScanSymbol cfg text i).app.length ≤ 1 := by
  simp [ScanSymbol]

theorem scanUnknown_app (cfg : LexerConfig) (text : List Char) (i : Nat) :
    (ScanUnknown cfg text i).app.length ≤ 1 := by
  simp [ScanUnknown]

theorem scanNumber_app (text : List Char) (i : Nat) :
    (ScanNumber text i).app.length ≤ 1 := by
  simp only [ScanNumber]
  split <;> simp

theorem scanString_app (cfg : LexerConfig) (text : List Char) (i : Nat) :
    (ScanString cfg text i).app.length ≤ 1 := by
  simp only [ScanString]
  split
  · simp
  · split <;> simp

theorem scanOperator_app (cfg : LexerConfig) (text : List Char) (i : Nat) :
    (ScanOperator cfg text i).app.length ≤ 1 := by
  simp only [ScanOperator]
  split
  · exact scanNumber_app text (i + 1)
  · simp

theorem scanBracket_app (text : List Char) (i : Nat) :
    (ScanBracket text i).app.length ≤ 1 := by
  simp [ScanBracket]

theorem scanTag_app (cfg : LexerConfig) (text : List Char) (i : Nat) :
    (ScanTag cfg text i).app.length ≤ 1 := by
  simp only [ScanTag]
  split
  · simp
  · split
    · simp
    · split <;> simp

/-- The whitespace/comment loop keeps errors (if any) at the very end of
the token list: starting from an error-free list, the result has no error
before its last token. -/
theorem wcLoop_invariant (cfg : LexerConfig) (text : List Char) :
    ∀ (fuel i : Nat) (toks : List LexerToken), errFreeB toks = true →
      okLastB (wcLoop cfg text i toks fuel).2 = true := by
  intro fuel
  induction fuel with
  | zero =>
    intro i toks h
    exact okLastB_of_errFree toks h
  | succ f ih =>
    intro i toks h
    have e1 : errFreeB (toks ++ (ScanWhitespace cfg text i).app) = true := by
      rw [errFreeB_append, Bool.and_eq_true]
      exact ⟨h, (scanWhitespace_app cfg text i).1⟩
    simp only [wcLoop]
    split
    · exact ih _ _ e1
    · split
      · rename_i hc
        apply ih
        rw [errFreeB_append, Bool.and_eq_true]
        exact ⟨e1, (scanComment_app cfg text _).2 hc⟩
      · exact okLastB_append _ _ e1 (scanComment_app cfg text _).1

/-- The final return check of `ProcessStep` (`tokens_.empty() ||
tokens_.back().IsError()`): appending at most one token to an error-free
list keeps errors last, and a `true` return means the list is error
free. -/
theorem stepFinish_invariant (l app : List LexerToken) (i2 : Nat)
    (hfree : errFreeB l = true) (hlen : app.length ≤ 1) :
    okLastB (if (l ++ app).isEmpty || lastIsError (l ++ app)
        then ((⟨i2, l ++ app⟩ : LexState), false)
        else ((⟨i2, l ++ app⟩ : LexState), true)).1.tokens = true ∧
    ((if (l ++ app).isEmpty || lastIsError (l ++ app)
        then ((⟨i2, l ++ app⟩ : LexState), false)
        else ((⟨i2, l ++ app⟩ : LexState), true)).2 = true →
      errFreeB (if (l ++ app).isEmpty || lastIsError (l ++ app)
        then ((⟨i2, l ++ app⟩ : LexState), false)
        else ((⟨i2, l ++ app⟩ : LexState), true)).1.tokens = true) := by
  have hok := okLastB_append l app hfree hlen
  constructor
  · split <;> exact hok
  · split
    · intro hf
      simp at hf
    · rename_i hcond
      intro _
      rw [Bool.or_eq_true, not_or, Bool.not_eq_true, Bool.not_eq_true] at hcond
      exact errFreeB_of_okLast _ hok hcond.2

/-- One `ProcessStep` from an error-free token list leaves errors only in
final position, and when it returns `true` the list is still entirely
error free. -/
theorem processStep_invariant (cfg : LexerConfig) (text : List Char)
    (s : LexState) (h : errFreeB s.tokens = true) :
    okLastB (ProcessStep cfg text s).1.tokens = true ∧
    ((ProcessStep cfg text s).2 = true →
      errFreeB (ProcessStep cfg text s).1.tokens = true) := by
  simp only [ProcessStep]
  split
  · exact ⟨okLastB_of_errFree _ h, fun hf => by simp at hf⟩
  · have hwc := wcLoop_invariant cfg text (text.length + 1) s.itr s.tokens h
    split
    · exact ⟨hwc, fun hf => by simp at hf⟩
    · rename_i hlast
      rw [Bool.not_eq_true] at hlast
      have hfree : errFreeB (wcLoop cfg text s.itr s.tokens (text.length + 1)).2 = true :=
        errFreeB_of_okLast _ hwc hlast
      split
      · exact ⟨hwc, fun hf => by simp at hf⟩
      · split
        · refine ⟨okLastB_append _ _ hfree (by simp), fun hf => by simp at hf⟩
        · rename_i hne
          cases htype : cfg.charType (getCharAt text (wcLoop cfg text s.itr s.tokens (text.length + 1)).1) with
          | kError =>
            rw [htype] at hne
            simp at hne
          | kUnknown => exact stepFinish_invariant _ _ _ hfree (scanUnknown_app cfg text _)
          | kWhite => exact stepFinish_invariant _ _ _ hfree (by simp)
          | kComment => exact stepFinish_invariant _ _ _ hfree (by simp)
          | kSymbol => exact stepFinish_invariant _ _ _ hfree (scanSymbol_app cfg text _)
          | kNumber => exact stepFinish_invariant _ _ _ hfree (scanNumber_app text _)
          | kString => exact stepFinish_invariant _ _ _ hfree (scanString_app cfg text _)
          | kBracket => exact stepFinish_invariant _ _ _ hfree (scanBracket_app text _)
          | kOperator => exact stepFinish_invariant _ _ _ hfree (scanOperator_app cfg text _)
          | kTag => exact stepFinish_invariant _ _ _ hfree (scanTag_app cfg text _)

/-- The `ProcessString` driver preserves the invariant. -/
theorem psLoop_invariant (cfg : LexerConfig) (text : List Char) :
    ∀ (fuel : Nat) (s : LexState), errFreeB s.tokens = true →
      okLastB (psLoop cfg text s fuel).1.tokens = true := by
  intro fuel
  induction fuel with
  | zero =>
    intro s h
    exact okLastB_of_errFree _ h
  | succ f ih =>
    intro s h
    simp only [psLoop]
    split
    · exact okLastB_of_errFree _ h
    · obtain ⟨h1, h2⟩ := processStep_invariant cfg text s h
      split
      · exact ih _ (h2 (by assumption))
      · exact h1

/-- The stepwise driver preserves the invariant. -/
theorem stepwiseRun_invariant (cfg : LexerConfig) (text : List Char) :
    ∀ (fuel : Nat) (s : LexState), errFreeB s.tokens = true →
      okLastB (StepwiseRun cfg text fuel s).tokens = true := by
  intro fuel
  induction fuel with
  | zero =>
    intro s h
    exact okLastB_of_errFree _ h
  | succ f ih =>
    intro s h
    simp only [StepwiseRun]
    obtain ⟨h1, h2⟩ := processStep_invariant cfg text s h
    split
    · exact ih _ (h2 (by assumption))
    · exact h1

-- =============================================================================
--     Claims C2, C3
-- =============================================================================

/-- C3: for every lexer configuration and every input text, the token
list produced by `ProcessString` — and likewise by the stepwise protocol
(`ProcessStep` repeated until it returns `false`) — contains at most one
error token, and every token before the last one is not an error token:
nothing is ever appended after an error token. -/
theorem claim_C3_error_token_is_terminal (cfg : LexerConfig) (text : List Char) :
    (errFreeB (ProcessString cfg text).1.tokens.dropLast = true ∧
      ((ProcessString cfg text).1.tokens.filter (fun t => t.IsError)).length ≤ 1) ∧
    (errFreeB (ProcessStepwise cfg text).tokens.dropLast = true ∧
      ((ProcessStepwise cfg text).tokens.filter (fun t => t.IsError)).length ≤ 1) := by
  have h1 := psLoop_invariant cfg text (text.length + 1) ⟨0, []⟩ rfl
  have h2 := stepwiseRun_invariant cfg text (text.length + 1) ⟨0, []⟩ rfl
  exact ⟨⟨h1, errCount_le_one_of_okLast _ h1⟩, ⟨h2, errCount_le_one_of_okLast _ h2⟩⟩

/-- C2: the claim says `ValidateBrackets` returns `false` whenever some
opening bracket token lacks a matching closing bracket, for example on
the tokens of `(A,B;`.  In the code the loop only rejects unmatched or
mismatched closing brackets and the final `return true` never checks that
the stack is empty, so for the tokens of `(A,B;` — whose only bracket
token is the unmatched `(` — it returns `true`, contradicting its own
documentation ("every opening bracket must be matched with a
corresponding closing bracket"). -/
theorem claim_C2_unmatched_open_bracket_accepted :
    (ProcessString newickConfig "(A,B;".data).1.tokens
      = [⟨.kBracket, 0, "(".data⟩, ⟨.kSymbol, 1, "A".data⟩, ⟨.kOperator, 2, ",".data⟩,
         ⟨.kSymbol, 3, "B".data⟩, ⟨.kOperator, 4, ";".data⟩] ∧
    ((ProcessString newickConfig "(A,B;".data).1.tokens.filter (fun t => t.IsBracket))
      = [⟨.kBracket, 0, "(".data⟩] ∧
    ValidateBrackets (ProcessString newickConfig "(A,B;".data).1.tokens = true := by
  refine ⟨by decide, by decide, by decide⟩

-- =============================================================================
--     Claim C6: ScanNumber on malformed numeric input
-- =============================================================================

/-- A sign character is `+` or `-`. -/
theorem charIsSign_shape (c : Char) (h : charIsSign c = true) : c = '+' ∨ c = '-' := by
  simpa [charIsSign] using h

/-- An `e`/`E` character. -/
theorem charMatchE_shape (c : Char) (h : charMatchE c = true) : c = 'e' ∨ c = 'E' := by
  simpa [charMatchE] using h

/-- The number-scanning loop walks straight over a run of digits,
leaving its flags untouched. -/
theorem numLoop_digit_run (text : List Char) (start : Nat) :
    ∀ (k i : Nat) (fd fe : Bool) (fuel : Nat), k ≤ fuel →
      (∀ j, j < k → isEndAt text (i + j) = false ∧ charIsDigit (getCharAt text (i + j)) = true) →
      numLoop text start i fd fe fuel = numLoop text start (i + k) fd fe (fuel - k) := by
  intro k
  induction k with
  | zero =>
    intro i fd fe fuel hk hd
    simp
  | succ n ih =>
    intro i fd fe fuel hk hd
    cases fuel with
    | zero => omega
    | succ f =>
      have h0 := hd 0 (by omega)
      rw [Nat.add_zero] at h0
      rw [numLoop, h0.1]
      simp only [Bool.false_eq_true, if_false, h0.2, if_true]
      have hrec := ih (i + 1) fd fe f (by omega)
        (fun j hj => by
          have := hd (j + 1) (by omega)
          rwa [show i + (j + 1) = i + 1 + j from by omega] at this)
      rw [hrec, show i + 1 + n = i + (n + 1) from by omega,
        show f - n = f + 1 - (n + 1) from by omega]

/-- C6, counterexample.  The claim says `ScanNumber` pushes an error token
on every malformed numeric sequence, including a dangling dot.  Started on
`1.` it instead stops before the dot and pushes the number token `1`. -/
theorem claim_C6_counterexample :
    ScanNumber "1.".data 0 = ⟨1, [⟨.kNumber, 0, "1".data⟩], true⟩ ∧
    ∀ t ∈ (ScanNumber "1.".data 0).app, t.IsError = false := by
  refine ⟨by decide, by decide⟩

/-- C6, amended: `ScanNumber` pushes an error token exactly when its loop
stops at the very first character — in particular on a lone sign (a sign
not followed by a digit).  A dangling dot or dangling exponent after at
least one digit is not an error: the scanner stops before the dot or
exponent and pushes a number token holding just the digits scanned so
far, leaving the dot or exponent unconsumed. -/
theorem claim_C6_scan_number_outcomes (text : List Char) (i k : Nat) :
    (charIsSign (getCharAt text i) = true → isEndAt text i = false →
      (isEndAt text (i + 1) = true ∨ charIsDigit (getCharAt text (i + 1)) = false) →
      ScanNumber text i = ⟨i, [⟨.kError, i, msgMalformedNumber⟩], false⟩) ∧
    (1 ≤ k →
      (∀ j, j < k → isEndAt text (i + j) = false ∧ charIsDigit (getCharAt text (i + j)) = true) →
      isEndAt text (i + k) = false → getCharAt text (i + k) = '.' →
      (isEndAt text (i + k + 1) = true ∨ charIsDigit (getCharAt text (i + k + 1)) = false) →
      ScanNumber text i = ⟨i + k, [⟨.kNumber, i, substr text i (i + k)⟩], true⟩) ∧
    (1 ≤ k →
      (∀ j, j < k → isEndAt text (i + j) = false ∧ charIsDigit (getCharAt text (i + j)) = true) →
      isEndAt text (i + k) = false → charMatchE (getCharAt text (i + k)) = true →
      (isEndAt text (i + k + 1) = true ∨
        (charIsDigit (getCharAt text (i + k + 1)) = false ∧
          charIsSign (getCharAt text (i + k + 1)) = false)) →
      ScanNumber text i = ⟨i + k, [⟨.kNumber, i, substr text i (i + k)⟩], true⟩) := by
  refine ⟨?_, ?_, ?_⟩
  · intro hsign hend0 hnext
    have hd : charIsDigit (getCharAt text i) = false := by
      rcases charIsSign_shape _ hsign with h | h <;> rw [h] <;> decide
    have hdot : (getCharAt text i == '.') = false := by
      rcases charIsSign_shape _ hsign with h | h <;> rw [h] <;> decide
    have he : charMatchE (getCharAt text i) = false := by
      rcases charIsSign_shape _ hsign with h | h <;> rw [h] <;> decide
    rcases hnext with hn | hn <;>
      simp [ScanNumber, numLoop, hend0, hd, hdot, he, hsign, hn]
  · intro hk hds hdend hdot hafter
    have hlen : i + k < text.length := by
      simpa [isEndAt] using hdend
    have hrun := numLoop_digit_run text i k i false false (text.length + 1)
      (by omega) hds
    have hfuel : text.length + 1 - k = (text.length - k) + 1 := by omega
    have hd : charIsDigit (getCharAt text (i + k)) = false := by rw [hdot]; decide
    have hdoteq : (getCharAt text (i + k) == '.') = true := by rw [hdot]; decide
    rw [ScanNumber, hrun, hfuel, numLoop, hdend]
    rcases hafter with hn | hn <;>
      simp [hd, hdoteq, hn]
  · intro hk hds hdend he hafter
    have hlen : i + k < text.length := by
      simpa [isEndAt] using hdend
    have hrun := numLoop_digit_run text i k i false false (text.length + 1)
      (by omega) hds
    have hfuel : text.length + 1 - k = (text.length - k) + 1 := by omega
    have hd : charIsDigit (getCharAt text (i + k)) = false := by
      rcases charMatchE_shape _ he with h | h <;> rw [h] <;> decide
    have hdot : (getCharAt text (i + k) == '.') = false := by
      rcases charMatchE_shape _ he with h | h <;> rw [h] <;> decide
    have h0 : (i + k == 0) = false := by
      rw [beq_eq_false_iff_ne]
      omega
    have hne : (i + k == i) = false := by
      rw [beq_eq_false_iff_ne]
      omega
    have hprev : charIsDigit (getCharAt text (i + k - 1)) = true := by
      have h1 := (hds (k - 1) (by omega)).2
      rwa [show i + (k - 1) = i + k - 1 from by omega] at h1
    rw [ScanNumber, hrun, hfuel, numLoop, hdend]
    rcases hafter with hn | hn <;>
      simp [hd, hdot, he, h0, hne, hprev, hn]

/-- C6, witness for the amended claim: a lone `+` yields the error token;
`1.` (dangling dot) and `2e` (dangling exponent) yield number tokens
holding just the digit. -/
theorem claim_C6_witness :
    (charIsSign (getCharAt "+".data 0) = true ∧
      ScanNumber "+".data 0 = ⟨0, [⟨.kError, 0, msgMalformedNumber⟩], false⟩) ∧
    ScanNumber "1.".data 0 = ⟨0 + 1, [⟨.kNumber, 0, substr "1.".data 0 (0 + 1)⟩], true⟩ ∧
    ScanNumber "2e".data 0 = ⟨0 + 1, [⟨.kNumber, 0, substr "2e".data 0 (0 + 1)⟩], true⟩ :=
  ⟨⟨by decide,
      (claim_C6_scan_number_outcomes "+".data 0 0).1 (by decide) (by decide) (by decide)⟩,
    (claim_C6_scan_number_outcomes "1.".data 0 1).2.1 (by decide) (by decide) (by decide)
      (by decide) (by decide),
    (claim_C6_scan_number_outcomes "2e".data 0 1).2.2 (by decide) (by decide) (by decide)
      (by decide) (by decide)⟩

end Genesis
